import Mathlib

/-!
# Verification of the chess-opening-mistakes analysis backend

A shallow embedding in Lean 4 of the analysis Lambda
(`src/unnamed/part_001` of the repository): the Stockfish output
processing in `StockfishEngine.getEvaluation`, the PGN result helpers,
`uciToSan`, `analyzeGame`, the batch partitioning of `handleAnalyze`
(`splitIntoBatches` and the repartitioning against the parallelism cap),
the fast cached path of `handleAnalyze`, the completed branch of
`handleStatus`, and the batch-completion/aggregation protocol of
`completeBatch` / `aggregateJobResults`.

External collaborators (chess.js, the Stockfish process, DynamoDB) are
modelled as explicit oracle/state parameters; everything the repository
itself computes is translated directly from the JavaScript source.
-/

namespace ChessMistakes

/-! ## Constants (part_001 lines 10-15) -/

def ANALYSIS_DEPTH : Nat := 18
def MOVES_TO_ANALYZE : Nat := 14
def MISTAKE_THRESHOLD : Int := 100
def BATCH_SIZE : Nat := 20
def MAX_PARALLEL_LAMBDAS : Nat := 50

/-! ## Batch partitioning (part_001 lines 709-716 and 768-777)

`splitIntoBatches(array, batchSize)` pushes `array.slice(i, i + batchSize)`
for `i = 0, batchSize, 2*batchSize, ...`.  For `batchSize = 0` the
JavaScript loop would not terminate; both call sites pass a positive
size, and we return `[]` in that unreachable case so the Lean function
is total. -/

def splitIntoBatches {α : Type} : List α → Nat → List (List α)
  | _, 0 => []
  | [], _ + 1 => []
  | x :: xs, b + 1 => ((x :: xs).take (b + 1)) :: splitIntoBatches (List.drop b xs) (b + 1)
  termination_by l _ => l.length
  decreasing_by simp [List.length_drop]; omega

/-- `handleAnalyze`'s partition of the submitted games (lines 768-777):
split with `BATCH_SIZE`, and when more than `MAX_PARALLEL_LAMBDAS`
batches result, resplit with `Math.ceil(games.length / MAX_PARALLEL_LAMBDAS)`
(= `(N + 49) / 50` in exact integer arithmetic). -/
def finalBatchesFor {α : Type} (games : List α) : List (List α) :=
  let batches := splitIntoBatches games BATCH_SIZE
  if batches.length > MAX_PARALLEL_LAMBDAS then
    let gamesPerLambda := (games.length + MAX_PARALLEL_LAMBDAS - 1) / MAX_PARALLEL_LAMBDAS
    splitIntoBatches games gamesPerLambda
  else
    batches

lemma splitIntoBatches_join {α : Type} (l : List α) (b : Nat) (hb : 0 < b) :
    (splitIntoBatches l b).flatten = l := by
  induction l, b using splitIntoBatches.induct with
  | case1 => omega
  | case2 => simp [splitIntoBatches]
  | case3 x xs b ih =>
      have ih' := ih b.succ_pos
      simp only [List.drop_succ_cons] at ih'
      simp only [splitIntoBatches, List.flatten_cons, ih']
      simp [List.take_append_drop]

lemma splitIntoBatches_length_le {α : Type} (l : List α) (b : Nat) :
    ∀ k : Nat, 0 < b → l.length ≤ k * b → (splitIntoBatches l b).length ≤ k := by
  induction l, b using splitIntoBatches.induct with
  | case1 => omega
  | case2 => intro k _ _; simp [splitIntoBatches]
  | case3 x xs b ih =>
      intro k hb hlen
      cases k with
      | zero => simp at hlen
      | succ k =>
        rw [Nat.succ_mul] at hlen
        have h1 : (List.drop b xs).length ≤ k * (b + 1) := by
          simp only [List.length_drop]
          simp only [List.length_cons, Nat.succ_eq_add_one] at hlen
          omega
        have h2 := ih k b.succ_pos h1
        simp only [splitIntoBatches, List.length_cons]
        omega

/-- **C4.** `handleAnalyze`'s partitioning — `splitIntoBatches` with batch
size 20, repartitioned with size `ceil(N/50)` whenever the first
partition yields more than 50 batches — produces at most 50 batches, and
the concatenation of the batch game-lists equals the original input list
in the original order. -/
theorem finalBatchesFor_bounded_and_complete {α : Type} (games : List α) :
    (finalBatchesFor games).length ≤ MAX_PARALLEL_LAMBDAS ∧
      (finalBatchesFor games).flatten = games := by
  unfold finalBatchesFor
  simp only [MAX_PARALLEL_LAMBDAS, BATCH_SIZE]
  by_cases h : (splitIntoBatches games 20).length > 50
  · simp only [h, if_pos]
    have hne : games.length ≥ 1 := by
      cases games with
      | nil => simp [splitIntoBatches] at h
      | cons x xs => simp
    have hc : 0 < (games.length + 50 - 1) / 50 := by omega
    constructor
    · exact splitIntoBatches_length_le games _ 50 hc (by omega)
    · exact splitIntoBatches_join games _ hc
  · simp only [h, if_neg, not_false_iff]
    constructor
    · omega
    · exact splitIntoBatches_join games 20 (by norm_num)

/-! ## Stockfish output processing (part_001 lines 88-136)

`StockfishEngine.getEvaluation(fen)` installs a message handler and
feeds it the engine's output lines in order.  A line is relevant in two
cases only: it starts with `info` and contains `score` (then the
depth / `score mate` / `score cp` / ` pv` regexes are applied), or it
starts with `bestmove` (then the promise resolves).  We embed a line as
the outcome of those regexes:

* `EngineLine.info d sc pv` — a line starting with `info` and containing
  the substring `score`; `d` is the captured `depth (\d+)` group (the
  code substitutes 0 when absent), `sc` the captured `score mate n` /
  `score cp n` token when one matches, `pv` the captured first
  principal-variation move when one matches;
* `EngineLine.bestmove mv` — a line starting with `bestmove`;
* `EngineLine.other` — any line matching neither test (ignored).
-/

inductive ScoreTok : Type
  | mate (n : Int)
  | cp (n : Int)
  deriving DecidableEq, Repr

inductive EngineLine : Type
  | info (depth : Option Nat) (score : Option ScoreTok) (pv : Option String)
  | bestmove (mv : String)
  | other
  deriving DecidableEq, Repr

/-- The mutable locals of `getEvaluation` (lines 90-92). -/
structure EvalState where
  evalScore : Option Int
  bestMove : Option String
  currentDepth : Nat
  deriving DecidableEq, Repr

def initEvalState : EvalState :=
  { evalScore := none, bestMove := none, currentDepth := 0 }

/-- Conversion of a captured score token to the integer stored in
`evalScore` (lines 102-111): `score mate n` becomes
`n > 0 ? 10000 - n*100 : -10000 - n*100`, `score cp n` is kept as is. -/
def scoreTokVal : ScoreTok → Int
  | .mate n => if n > 0 then 10000 - n * 100 else -10000 - n * 100
  | .cp n => n

/-- One step of the message handler on a non-terminal line
(lines 95-118): a qualifying line (captured depth `>= ANALYSIS_DEPTH`,
with 0 substituted for a missing capture) updates `currentDepth`,
`evalScore` (when a score token matched) and `bestMove` (when a pv
move matched); every other line leaves the state unchanged. -/
def processLine (s : EvalState) : EngineLine → EvalState
  | .info depth score pv =>
      let d := depth.getD 0
      if d ≥ ANALYSIS_DEPTH then
        { currentDepth := d
          evalScore :=
            match score with
            | some tok => some (scoreTokVal tok)
            | none => s.evalScore
          bestMove :=
            match pv with
            | some mv => some mv
            | none => s.bestMove }
      else s
  | .bestmove _ => s
  | .other => s

/-- JavaScript's `s.split(c)` for a single-character separator,
evaluably: splits at every occurrence, keeping empty fields
(`"a  b".split(' ')` gives `["a", "", "b"]`, `"".split(' ')` gives
`[""]`). -/
def splitFieldsAux (sep : Char) : List Char → List Char → List String
  | [], acc => [String.mk acc.reverse]
  | c :: cs, acc =>
      if c = sep then String.mk acc.reverse :: splitFieldsAux sep cs []
      else splitFieldsAux sep cs (c :: acc)

def jsSplitChar (sep : Char) (s : String) : List String := splitFieldsAux sep s.data []

/-- `fen.split(' ')`. -/
def jsSplitSpace (s : String) : List String := jsSplitChar ' ' s

/-- JavaScript's `s.startsWith(pre)`, evaluably. -/
def jsStartsWith (pre s : String) : Bool := List.isPrefixOf pre.data s.data

/-- The payload `resolve`d on the `bestmove` line (lines 120-130):
`fen.split(' ')[1]` is the side to move; the captured score is negated
when it is `'b'` and the score is non-null. -/
structure EvalResult where
  eval : Option Int
  bestMove : Option String
  depth : Nat
  deriving DecidableEq, Repr

def resolveEval (fen : String) (s : EvalState) : EvalResult :=
  let sideToMove := (jsSplitSpace fen)[1]?
  let normalizedEval :=
    if sideToMove = some "b" ∧ s.evalScore ≠ none then s.evalScore.map (fun x => -x)
    else s.evalScore
  { eval := normalizedEval, bestMove := s.bestMove, depth := s.currentDepth }

/-- `getEvaluation`, run against a full transcript of engine output
lines: the handler folds over the lines and the promise resolves at the
first `bestmove` line; `none` means the transcript contained no
`bestmove` line and the promise never resolves. -/
def runEval (fen : String) : EvalState → List EngineLine → Option EvalResult
  | _, [] => none
  | s, .bestmove _ :: _ => some (resolveEval fen s)
  | s, l :: rest => runEval fen (processLine s l) rest

/-- The score of the last qualifying line of a transcript: the last
line that starts with `info`, contains `score`, reports depth
`>= ANALYSIS_DEPTH` and carries a score token.  (Mirrors the claim's
words; to be compared with what `runEval` captures.) -/
def lastDeepScore : List EngineLine → Option Int
  | [] => none
  | l :: rest =>
      match lastDeepScore rest with
      | some v => some v
      | none =>
          match l with
          | .info d (some tok) _ =>
              if d.getD 0 ≥ ANALYSIS_DEPTH then some (scoreTokVal tok) else none
          | _ => none

lemma foldl_processLine_evalScore :
    ∀ (pre : List EngineLine) (s : EvalState),
      (List.foldl processLine s pre).evalScore = (lastDeepScore pre).or s.evalScore := by
  intro pre
  induction pre with
  | nil => intro s; rfl
  | cons l rest ih =>
      intro s
      simp only [List.foldl_cons]
      rw [ih (processLine s l)]
      cases hrest : lastDeepScore rest with
      | some v => simp [lastDeepScore, hrest, Option.or]
      | none =>
          simp only [lastDeepScore, hrest]
          cases l with
          | info d sc pv =>
              cases sc with
              | some tok =>
                  by_cases hd : d.getD 0 ≥ ANALYSIS_DEPTH
                  · simp [processLine, hd, Option.or]
                  · simp [processLine, hd, Option.or]
              | none =>
                  by_cases hd : d.getD 0 ≥ ANALYSIS_DEPTH
                  · simp [processLine, hd, Option.or]
                  · simp [processLine, hd, Option.or]
          | bestmove mv => simp [processLine, Option.or]
          | other => simp [processLine, Option.or]

lemma runEval_append_bestmove (fen mv : String) :
    ∀ (pre : List EngineLine) (s : EvalState), (∀ m, EngineLine.bestmove m ∉ pre) →
      runEval fen s (pre ++ [EngineLine.bestmove mv]) =
        some (resolveEval fen (List.foldl processLine s pre)) := by
  intro pre
  induction pre with
  | nil => intro s _; rfl
  | cons l rest ih =>
      intro s h
      cases l with
      | bestmove m => exact absurd (List.mem_cons_self _ _) (h m)
      | info d sc pv =>
          rw [List.cons_append,
            show runEval fen s (EngineLine.info d sc pv :: (rest ++ [EngineLine.bestmove mv])) =
              runEval fen (processLine s (EngineLine.info d sc pv))
                (rest ++ [EngineLine.bestmove mv]) from rfl,
            ih _ (fun m hm => h m (List.mem_cons_of_mem _ hm))]
          rfl
      | other =>
          rw [List.cons_append,
            show runEval fen s (EngineLine.other :: (rest ++ [EngineLine.bestmove mv])) =
              runEval fen (processLine s EngineLine.other)
                (rest ++ [EngineLine.bestmove mv]) from rfl,
            ih _ (fun m hm => h m (List.mem_cons_of_mem _ hm))]
          rfl

/-- **C5.** For a transcript of engine output lines ending in a
`bestmove` line, `getEvaluation` resolves, and its score is the score of
the last qualifying line — the last line starting with `info`,
containing `score`, carrying a score token, and reporting depth
`>= ANALYSIS_DEPTH = 18` — transported through the final side-to-move
normalization; shallower lines never overwrite it.  When no qualifying
line precedes the `bestmove`, the resolved score is `none` (null). -/
theorem getEvaluation_last_deep_score (fen mv : String) (pre : List EngineLine)
    (hnb : ∀ m, EngineLine.bestmove m ∉ pre) :
    Option.map EvalResult.eval (runEval fen initEvalState (pre ++ [EngineLine.bestmove mv])) =
      some (if (jsSplitSpace fen)[1]? = some "b"
            then (lastDeepScore pre).map (fun x => -x)
            else lastDeepScore pre) := by
  rw [runEval_append_bestmove fen mv pre initEvalState hnb]
  have h := foldl_processLine_evalScore pre initEvalState
  cases hlds : lastDeepScore pre with
  | none =>
      rw [hlds] at h
      have h2 : (List.foldl processLine initEvalState pre).evalScore = none := by
        rw [h]; rfl
      simp [resolveEval, h2]
  | some v =>
      rw [hlds] at h
      simp only [Option.or] at h
      by_cases hside : (jsSplitSpace fen)[1]? = some "b"
      · simp [resolveEval, h, hside]
      · simp [resolveEval, h, hside]

def preW : List EngineLine :=
  [EngineLine.info (some 20) (some (ScoreTok.cp 30)) (some "e2e4"),
   EngineLine.info (some 10) (some (ScoreTok.cp 999)) none,
   EngineLine.other]

theorem getEvaluation_last_deep_score_witness :
    (∀ m, EngineLine.bestmove m ∉ preW) ∧
      Option.map EvalResult.eval
          (runEval "8/8/8/8/8/8/8/8 w - - 0 1" initEvalState (preW ++ [EngineLine.bestmove "e2e4"])) =
        some (some 30) := by
  have hnb : ∀ m, EngineLine.bestmove m ∉ preW := by intro m hm; simp [preW] at hm
  exact ⟨hnb,
    (getEvaluation_last_deep_score "8/8/8/8/8/8/8/8 w - - 0 1" "e2e4" preW hnb).trans (by decide)⟩

/-- **C6.** `getEvaluation` resolves with the captured score negated
exactly when the side-to-move field of the queried FEN — field 1 of
`fen.split(' ')` — is `"b"` (the identity on a null score either way),
and a `score mate n` line of qualifying depth stores, before that
normalization, `10000 - 100*n` for `n > 0` and `-10000 - 100*n`
otherwise. -/
theorem getEvaluation_normalizes_and_mate (fen mv : String) (s : EvalState)
    (tl : List EngineLine) :
    runEval fen s (EngineLine.bestmove mv :: tl) =
        some { eval := if (jsSplitSpace fen)[1]? = some "b"
                       then s.evalScore.map (fun x => -x) else s.evalScore,
               bestMove := s.bestMove, depth := s.currentDepth } ∧
      (∀ (d : Option Nat) (n : Int) (pv : Option String), ANALYSIS_DEPTH ≤ d.getD 0 →
        (processLine s (EngineLine.info d (some (ScoreTok.mate n)) pv)).evalScore =
          some (if 0 < n then 10000 - n * 100 else -10000 - n * 100)) := by
  constructor
  · show some (resolveEval fen s) = _
    unfold resolveEval
    cases hs : s.evalScore with
    | none => simp [hs]
    | some v =>
        by_cases hside : (jsSplitSpace fen)[1]? = some "b"
        · simp [hs, hside]
        · simp [hs, hside]
  · intro d n pv hd
    simp [processLine, hd, scoreTokVal]

def sW : EvalState := { evalScore := some 42, bestMove := some "e2e4", currentDepth := 20 }

theorem getEvaluation_normalizes_and_mate_witness :
    runEval "8/8/8/8/8/8/8/8 b - - 0 1" sW [EngineLine.bestmove "e2e4"] =
        some { eval := some (-42), bestMove := some "e2e4", depth := 20 } ∧
      (processLine sW (EngineLine.info (some 18) (some (ScoreTok.mate 3)) none)).evalScore =
        some 9700 := by
  have h := getEvaluation_normalizes_and_mate "8/8/8/8/8/8/8/8 b - - 0 1" "e2e4" sW []
  exact ⟨h.1.trans (by decide), (h.2 (some 18) 3 none (by decide)).trans (by decide)⟩

/-! ## PGN result helpers (part_001 lines 147-169) -/

/-- `extractResultFromPgn` (lines 147-158): the part between the first
two `"` of the first PGN line starting with `[Result "`, `""` if none. -/
def extractResultFromPgn (pgn : String) : String :=
  match (jsSplitChar '\n' pgn).find? (fun line => jsStartsWith "[Result \"" line) with
  | some line => ((jsSplitChar '"' line)[1]?).getD ""
  | none => ""

/-- `getPlayerResult` (lines 160-169). -/
def getPlayerResult (pgnResult playerColor : String) : String :=
  if pgnResult = "1-0" then
    if playerColor = "white" then "Win" else "Loss"
  else if pgnResult = "0-1" then
    if playerColor = "white" then "Loss" else "Win"
  else if pgnResult = "1/2-1/2" then "Draw"
  else ""

/-! ## Single-game analysis (part_001 lines 184-265)

`analyzeGame(engine, gameData)` replays the parsed move history strictly
sequentially, querying the engine on the position after each ply.  The
external collaborators are abstracted as an oracle, keyed by the number
of half-moves already applied to the replay board:

* `parse` — `chess.load_pgn` followed by `chess.history()`: `none` when
  the PGN does not load, otherwise the algebraic move list;
* `evalAt k` / `bestAt k` — the `eval` and `bestMove` fields the engine
  returns for the position reached after `k` half-moves (`eval` already
  carries `getEvaluation`'s side-to-move normalization, see
  `resolveEval`);
* `sanAt k uci` — `uciToSan(uci, chess)` on that position;
* `fenAt k` — `chess.fen()` on that position.
-/

structure ChessOracle where
  parse : String → Option (List String)
  evalAt : Nat → Option Int
  bestAt : Nat → Option String
  sanAt : Nat → String → String
  fenAt : Nat → String

/-- The game record handed to `analyzeGame` (`gameData`).  The `white`
and `black` fields are opaque metadata objects to the analyzer; we carry
them as strings. -/
structure GameData where
  pgn : String
  player_color : String
  url : String
  opening : String
  eco : String
  time_class : String
  time_control : String
  end_time : Int
  white : String
  black : String
  deriving DecidableEq, Repr

/-- The record pushed at lines 238-257. -/
structure Mistake where
  move_number : Nat
  move : String
  best_move : Option String
  move_sequence : List String
  eval_before : Int
  eval_after : Int
  eval_drop : Int
  opening : String
  eco : String
  player_color : String
  game_url : String
  time_class : String
  time_control : String
  end_time : Int
  fen : String
  result : String
  white : String
  black : String
  deriving DecidableEq, Repr

/-- `playerMoveIndices` (lines 203-205): even half-move indices below
`MOVES_TO_ANALYZE` for white, odd ones for black. -/
def playerMoveIndicesFor (isWhite : Bool) : List Nat :=
  if isWhite then (List.range (MOVES_TO_ANALYZE / 2)).map (fun i => i * 2)
  else (List.range (MOVES_TO_ANALYZE / 2)).map (fun i => i * 2 + 1)

/-- The record literal of lines 238-257, at half-move index `i`. -/
def mkMistakeRecord (o : ChessOracle) (g : GameData) (playerColor : String) (i : Nat)
    (move : String) (bestMoveBefore : Option String) (moveSequence : List String)
    (pe ce evalChange : Int) : Mistake :=
  { move_number := i / 2 + 1
    move := move
    best_move := bestMoveBefore
    move_sequence := moveSequence
    eval_before := pe
    eval_after := ce
    eval_drop := evalChange
    opening := g.opening
    eco := g.eco
    player_color := playerColor
    game_url := g.url
    time_class := g.time_class
    time_control := g.time_control
    end_time := g.end_time
    fen := o.fenAt (i + 1)
    result := getPlayerResult (extractResultFromPgn g.pgn) playerColor
    white := g.white
    black := g.black }

/-- The `for` loop of lines 212-262, as a recursion on the remaining
iteration count (`fuel = min(MOVES_TO_ANALYZE, history.length) - i`).
State threaded through an iteration: `prevEval`, `moveSequence` and the
accumulated `mistakes`. -/
def analyzeLoop (o : ChessOracle) (g : GameData) (playerColor : String) (isWhite : Bool)
    (history : List String) :
    Nat → Nat → Option Int → List String → List Mistake → List Mistake
  | _, 0, _, _, mistakes => mistakes
  | i, fuel + 1, prevEval, moveSeq, mistakes =>
      let move := history.getD i ""
      let moveSequence := moveSeq ++ [move]
      let bestMoveBefore : Option String :=
        if i ∈ playerMoveIndicesFor isWhite then (o.bestAt i).map (o.sanAt i) else none
      let currentEval := o.evalAt (i + 1)
      let mistakes' :=
        if i ∈ playerMoveIndicesFor isWhite then
          match prevEval, currentEval with
          | some pe, some ce =>
              let evalChange := if isWhite then ce - pe else pe - ce
              if evalChange ≤ -MISTAKE_THRESHOLD then
                mistakes ++ [mkMistakeRecord o g playerColor i move bestMoveBefore
                  moveSequence pe ce evalChange]
              else mistakes
          | _, _ => mistakes
        else mistakes
      analyzeLoop o g playerColor isWhite history (i + 1) fuel currentEval moveSequence mistakes'

/-- `analyzeGame` (lines 184-265): `null` on an unparseable PGN or a
history shorter than `MOVES_TO_ANALYZE`, otherwise the loop's mistake
list seeded with the starting-position evaluation. -/
def analyzeGame (o : ChessOracle) (g : GameData) : Option (List Mistake) :=
  let playerColor := if g.player_color = "" then "white" else g.player_color
  let isWhite := playerColor = "white"
  match o.parse g.pgn with
  | none => none
  | some history =>
      if history.length < MOVES_TO_ANALYZE then none
      else
        some (analyzeLoop o g playerColor isWhite history 0
          (min MOVES_TO_ANALYZE history.length) (o.evalAt 0) [] [])

lemma mem_playerMoveIndicesFor (isWhite : Bool) (i : Nat) :
    i ∈ playerMoveIndicesFor isWhite ↔
      i < MOVES_TO_ANALYZE ∧ i % 2 = (if isWhite then 0 else 1) := by
  cases isWhite with
  | false =>
      simp only [playerMoveIndicesFor, Bool.false_eq_true, if_false, List.mem_map,
        List.mem_range, MOVES_TO_ANALYZE]
      constructor
      · rintro ⟨a, ha, rfl⟩; omega
      · rintro ⟨h1, h2⟩; exact ⟨i / 2, by omega, by omega⟩
  | true =>
      simp only [playerMoveIndicesFor, if_true, List.mem_map, List.mem_range,
        MOVES_TO_ANALYZE]
      constructor
      · rintro ⟨a, ha, rfl⟩; omega
      · rintro ⟨h1, h2⟩; exact ⟨i / 2, by omega, by omega⟩

/-- What one loop iteration appends at half-move index `i`, read off the
loop body: a record exactly when `i` is the analyzed player's index,
both endpoint evaluations are non-null, and the oriented change meets
the threshold. -/
def mistakeAt (o : ChessOracle) (g : GameData) (playerColor : String) (isWhite : Bool)
    (history : List String) (i : Nat) : Option Mistake :=
  if i ∈ playerMoveIndicesFor isWhite then
    match o.evalAt i, o.evalAt (i + 1) with
    | some pe, some ce =>
        let evalChange := if isWhite then ce - pe else pe - ce
        if evalChange ≤ -MISTAKE_THRESHOLD then
          some (mkMistakeRecord o g playerColor i (history.getD i "")
            ((o.bestAt i).map (o.sanAt i)) (history.take (i + 1)) pe ce evalChange)
        else none
    | _, _ => none
  else none

lemma analyzeLoop_succ (o : ChessOracle) (g : GameData) (playerColor : String)
    (isWhite : Bool) (history : List String) (i fuel : Nat) (prevEval : Option Int)
    (moveSeq : List String) (mistakes : List Mistake) :
    analyzeLoop o g playerColor isWhite history i (fuel + 1) prevEval moveSeq mistakes =
      analyzeLoop o g playerColor isWhite history (i + 1) fuel (o.evalAt (i + 1))
        (moveSeq ++ [history.getD i ""])
        (if i ∈ playerMoveIndicesFor isWhite then
          match prevEval, o.evalAt (i + 1) with
          | some pe, some ce =>
              let evalChange := if isWhite then ce - pe else pe - ce
              if evalChange ≤ -MISTAKE_THRESHOLD then
                mistakes ++ [mkMistakeRecord o g playerColor i (history.getD i "")
                  (if i ∈ playerMoveIndicesFor isWhite then (o.bestAt i).map (o.sanAt i)
                   else none)
                  (moveSeq ++ [history.getD i ""]) pe ce evalChange]
              else mistakes
          | _, _ => mistakes
        else mistakes) := rfl

lemma analyzeLoop_eq (o : ChessOracle) (g : GameData) (playerColor : String)
    (isWhite : Bool) (history : List String) :
    ∀ (fuel i : Nat) (acc : List Mistake), i + fuel ≤ history.length →
      analyzeLoop o g playerColor isWhite history i fuel (o.evalAt i) (history.take i) acc =
        acc ++ (List.range' i fuel).filterMap (mistakeAt o g playerColor isWhite history) := by
  intro fuel
  induction fuel with
  | zero => intro i acc _; simp [analyzeLoop]
  | succ fuel ih =>
      intro i acc h
      have hi : i < history.length := by omega
      have htake : history.take i ++ [history.getD i ""] = history.take (i + 1) := by
        rw [List.take_succ, List.getElem?_eq_getElem hi, List.getD_eq_getElem history "" hi]
        rfl
      rw [analyzeLoop_succ, htake, ih (i + 1) _ (by omega),
        show List.range' i (fuel + 1) = i :: List.range' (i + 1) fuel from rfl,
        List.filterMap_cons]
      rcases hmem : decide (i ∈ playerMoveIndicesFor isWhite) with _ | _
      · have hmem' : ¬ i ∈ playerMoveIndicesFor isWhite := of_decide_eq_false hmem
        simp [mistakeAt, hmem']
      · have hmem' : i ∈ playerMoveIndicesFor isWhite := of_decide_eq_true hmem
        cases hpe : o.evalAt i with
        | none => simp [mistakeAt, hmem', hpe]
        | some pe =>
            cases hce : o.evalAt (i + 1) with
            | none => simp [mistakeAt, hmem', hpe, hce]
            | some ce =>
                by_cases hth : (if isWhite then ce - pe else pe - ce) ≤ -MISTAKE_THRESHOLD
                · simp [mistakeAt, hmem', hpe, hce, hth]
                · simp [mistakeAt, hmem', hpe, hce, hth]

lemma analyzeGame_eq_filterMap (o : ChessOracle) (g : GameData) (history : List String)
    (hp : o.parse g.pgn = some history) (hl : MOVES_TO_ANALYZE ≤ history.length) :
    analyzeGame o g = some ((List.range MOVES_TO_ANALYZE).filterMap
      (mistakeAt o g (if g.player_color = "" then "white" else g.player_color)
        (decide ((if g.player_color = "" then "white" else g.player_color) = "white"))
        history)) := by
  unfold analyzeGame
  rw [hp]
  simp only
  rw [if_neg (by omega), min_eq_left hl]
  have h0 := analyzeLoop_eq o g (if g.player_color = "" then "white" else g.player_color)
    (decide ((if g.player_color = "" then "white" else g.player_color) = "white"))
    history MOVES_TO_ANALYZE 0 [] (by omega)
  simpa [List.range_eq_range'] using h0

/-- The claim's per-index emission condition, in its own words: a
record at half-move index `i` exactly when `i` has the analyzed
player's parity (even for the first mover, odd for the second), both
endpoint evaluations are non-null, and the change oriented to the
analyzed player (`currentEval - prevEval` for the first mover,
`prevEval - currentEval` for the second) is `<= -MISTAKE_THRESHOLD`;
the record carries that change as `eval_drop` and `i / 2 + 1` as
`move_number`. -/
def claimedMistakeAt (o : ChessOracle) (g : GameData) (history : List String) (i : Nat) :
    Option Mistake :=
  let playerColor := if g.player_color = "" then "white" else g.player_color
  let isWhite : Bool := decide (playerColor = "white")
  match o.evalAt i, o.evalAt (i + 1) with
  | some pe, some ce =>
      let delta := if isWhite then ce - pe else pe - ce
      if i % 2 = (if isWhite then 0 else 1) ∧ delta ≤ -MISTAKE_THRESHOLD then
        some (mkMistakeRecord o g playerColor i (history.getD i "")
          ((o.bestAt i).map (o.sanAt i)) (history.take (i + 1)) pe ce delta)
      else none
  | _, _ => none

/-- **C1.** For a game whose PGN parses to a history of at least
`MOVES_TO_ANALYZE = 14` half-moves, `analyzeGame` returns exactly the
records described by `claimedMistakeAt`, one per qualifying half-move
index below 14: emission happens exactly on the analyzed player's
parity with both evaluations non-null and oriented change
`<= -100`, and each record stores that change as `eval_drop` and
`i / 2 + 1` as `move_number`. -/
theorem analyzeGame_mistake_emission (o : ChessOracle) (g : GameData)
    (history : List String) (hp : o.parse g.pgn = some history)
    (hl : MOVES_TO_ANALYZE ≤ history.length) :
    analyzeGame o g =
      some ((List.range MOVES_TO_ANALYZE).filterMap (claimedMistakeAt o g history)) := by
  rw [analyzeGame_eq_filterMap o g history hp hl]
  congr 1
  apply List.filterMap_congr
  intro i hi
  have hi14 : i < MOVES_TO_ANALYZE := List.mem_range.mp hi
  unfold mistakeAt claimedMistakeAt
  simp only [mem_playerMoveIndicesFor]
  cases hpe : o.evalAt i with
  | none =>
      cases hce : o.evalAt (i + 1) with
      | none => split_ifs <;> rfl
      | some ce => split_ifs <;> rfl
  | some pe =>
      cases hce : o.evalAt (i + 1) with
      | none => split_ifs <;> rfl
      | some ce =>
          by_cases hpar : i % 2 =
              (if g.player_color = "" ∨ g.player_color = "white" then 0 else 1) <;>
            by_cases hth : (if g.player_color = "" ∨ g.player_color = "white"
                then ce - pe else pe - ce) ≤ -MISTAKE_THRESHOLD <;>
            simp [hi14, hpar, hth]

def hist1 : List String :=
  ["e4", "e5", "Nf3", "Nc6", "Bb5", "a6", "Ba4", "Nf6", "O-O", "Be7", "Re1", "b5", "Bb3", "d6"]

def oracle1 : ChessOracle :=
  { parse := fun _ => some hist1
    evalAt := fun k => some (if k = 3 then -200 else 30)
    bestAt := fun _ => some "d2d4"
    sanAt := fun _ _ => "d4"
    fenAt := fun _ => "fen" }

def game1 : GameData :=
  { pgn := "[Result \"1-0\"]\n1. e4 e5", player_color := "white", url := "https://chess.test/1"
    opening := "Ruy Lopez", eco := "C60", time_class := "blitz", time_control := "300"
    end_time := 0, white := "w", black := "b" }

theorem analyzeGame_mistake_emission_witness :
    oracle1.parse game1.pgn = some hist1 ∧ MOVES_TO_ANALYZE ≤ hist1.length ∧
      analyzeGame oracle1 game1 =
        some ((List.range MOVES_TO_ANALYZE).filterMap (claimedMistakeAt oracle1 game1 hist1)) :=
  ⟨rfl, by decide, analyzeGame_mistake_emission oracle1 game1 hist1 rfl (by decide)⟩

/-- **C7.** `analyzeGame` returns `null` exactly when the PGN fails to
parse or the parsed history has fewer than `MOVES_TO_ANALYZE = 14`
half-moves; in every other case it returns a (possibly empty) list. -/
theorem analyzeGame_none_iff (o : ChessOracle) (g : GameData) :
    analyzeGame o g = none ↔
      o.parse g.pgn = none ∨
        ∃ history, o.parse g.pgn = some history ∧ history.length < MOVES_TO_ANALYZE := by
  unfold analyzeGame
  cases hp : o.parse g.pgn with
  | none => simp
  | some history =>
      by_cases hl : history.length < MOVES_TO_ANALYZE
      · simp [hl]
      · simp [hl]

def oracle3 : ChessOracle :=
  { parse := fun _ => some hist1
    evalAt := fun k => some (if k = 2 then 150 else 0)
    bestAt := fun _ => none
    sanAt := fun _ uci => uci
    fenAt := fun _ => "fen" }

def game3 : GameData :=
  { pgn := "[Result \"0-1\"]\n1. e4 e5", player_color := "black", url := "https://chess.test/3"
    opening := "Open Game", eco := "C20", time_class := "blitz", time_control := "300"
    end_time := 0, white := "w", black := "b" }

/-- **C3, counterexample.** With the analyzed player the second mover,
`analyzeGame` emits a record whose stored fields violate
`eval_drop = eval_after - eval_before`: the stored evaluations keep
`getEvaluation`'s fixed first-mover perspective (`eval_before = 0`,
`eval_after = 150`, both oriented to White), while `eval_drop` is the
black-oriented `-150`. -/
theorem analyzeGame_black_eval_drop_cex :
    ((analyzeGame oracle3 game3).getD []).map
        (fun m => (m.eval_drop, m.eval_after - m.eval_before)) = [(-150, 150)] ∧
      ((analyzeGame oracle3 game3).getD []).any
        (fun m => m.eval_drop != m.eval_after - m.eval_before) = true := by
  constructor <;> decide

/-- **C3, amended.** Every record emitted by `analyzeGame` stores
`eval_before` and `eval_after` exactly as returned by the evaluation
oracle for consecutive half-move counts — i.e. in `getEvaluation`'s
fixed first-mover perspective for both colors, not re-oriented to the
analyzed player — and `eval_drop` equals `eval_after - eval_before`
when the analyzed player is the first mover but
`eval_before - eval_after` when the second mover. -/
theorem analyzeGame_eval_drop_orientation (o : ChessOracle) (g : GameData)
    (history : List String) (ms : List Mistake) (hp : o.parse g.pgn = some history)
    (hl : MOVES_TO_ANALYZE ≤ history.length) (hms : analyzeGame o g = some ms)
    (m : Mistake) (hm : m ∈ ms) :
    (m.eval_drop = if (if g.player_color = "" then "white" else g.player_color) = "white"
      then m.eval_after - m.eval_before else m.eval_before - m.eval_after) ∧
      ∃ i, i < MOVES_TO_ANALYZE ∧ o.evalAt i = some m.eval_before ∧
        o.evalAt (i + 1) = some m.eval_after := by
  rw [analyzeGame_mistake_emission o g history hp hl, Option.some_inj] at hms
  subst hms
  obtain ⟨i, hi, hfi⟩ := List.mem_filterMap.mp hm
  have hi14 : i < MOVES_TO_ANALYZE := List.mem_range.mp hi
  unfold claimedMistakeAt at hfi
  simp only at hfi
  cases hpe : o.evalAt i with
  | none => rw [hpe] at hfi; simp at hfi
  | some pe =>
      cases hce : o.evalAt (i + 1) with
      | none => rw [hpe, hce] at hfi; simp at hfi
      | some ce =>
          rw [hpe, hce] at hfi
          dsimp only at hfi
          split_ifs at hfi <;>
            (rw [Option.some_inj] at hfi
             subst hfi
             refine ⟨?_, i, hi14, hpe, hce⟩
             simp_all [mkMistakeRecord])

def mistake3 : Mistake :=
  mkMistakeRecord oracle3 game3 "black" 1 (hist1.getD 1 "")
    ((oracle3.bestAt 1).map (oracle3.sanAt 1)) (hist1.take 2) 0 150 (-150)

theorem analyzeGame_eval_drop_orientation_witness :
    analyzeGame oracle3 game3 = some [mistake3] ∧
      (mistake3.eval_drop =
        if (if game3.player_color = "" then "white" else game3.player_color) = "white"
        then mistake3.eval_after - mistake3.eval_before
        else mistake3.eval_before - mistake3.eval_after) ∧
      ∃ i, i < MOVES_TO_ANALYZE ∧ oracle3.evalAt i = some mistake3.eval_before ∧
        oracle3.evalAt (i + 1) = some mistake3.eval_after := by
  have h1 : analyzeGame oracle3 game3 = some [mistake3] := by decide
  exact ⟨h1,
    analyzeGame_eval_drop_orientation oracle3 game3 hist1 [mistake3] rfl (by decide) h1
      mistake3 (List.mem_singleton.mpr rfl)⟩

/-! ## uciToSan (part_001 lines 171-182)

`uciToSan(uciMove, chess)` slices the coordinate move into
`from = uciMove.substring(0, 2)`, `to = uciMove.substring(2, 4)` and
`promotion = uciMove.length > 4 ? uciMove[4] : undefined`, then calls
`chess.move({from, to, promotion})`.  chess.js is the external
collaborator: its `move` either returns `null` (illegal move, state
untouched) or mutates the state and returns the move object, and its
`undo` pops the last applied move.  We model it as an abstract
transition system over a state type `σ`. -/

structure MoveArg where
  f : String
  t : String
  promotion : Option Char
  deriving DecidableEq, Repr

structure SanMove where
  san : String
  deriving DecidableEq, Repr

structure ChessJs (σ : Type) where
  moveFn : σ → MoveArg → Option (σ × SanMove)
  undoFn : σ → σ

/-- The argument object built at lines 172-174 (moves are ASCII, so
UTF-16 slicing coincides with character slicing). -/
def uciArg (uciMove : String) : MoveArg :=
  { f := String.mk (uciMove.data.take 2)
    t := String.mk ((uciMove.data.drop 2).take 2)
    promotion := uciMove.data[4]? }

/-- `uciToSan`, state-passing: apply the move; on success undo it and
return the SAN string, on failure return the coordinate string. -/
def uciToSan {σ : Type} (lib : ChessJs σ) (uciMove : String) (chess : σ) : String × σ :=
  match lib.moveFn chess (uciArg uciMove) with
  | some (chess', mv) => (mv.san, lib.undoFn chess')
  | none => (uciMove, chess)

/-- **C9.** Provided the library's `undo` inverts a successful `move`
(chess.js's contract), `uciToSan` leaves the game state at its pre-call
value — a legal move is applied and then undone, an illegal one never
applied — and on an illegal move it returns the input coordinate string
unchanged instead of raising. -/
theorem uciToSan_restores_state {σ : Type} (lib : ChessJs σ)
    (hundo : ∀ s a s' mv, lib.moveFn s a = some (s', mv) → lib.undoFn s' = s)
    (uciMove : String) (chess : σ) :
    (uciToSan lib uciMove chess).2 = chess ∧
      (lib.moveFn chess (uciArg uciMove) = none →
        (uciToSan lib uciMove chess).1 = uciMove) := by
  constructor
  · unfold uciToSan
    cases hm : lib.moveFn chess (uciArg uciMove) with
    | none => rfl
    | some p =>
        cases p with
        | mk s' mv => exact hundo chess _ s' mv hm
  · intro hnone
    unfold uciToSan
    rw [hnone]

/-- A concrete toy chess library: the only legal origin square is
`"e2"`; states are stacks of applied moves. -/
def stackLib : ChessJs (List MoveArg) :=
  { moveFn := fun s a => if a.f = "e2" then some (a :: s, { san := "e4" }) else none
    undoFn := fun s => s.tail }

lemma stackLib_undo :
    ∀ s a s' mv, stackLib.moveFn s a = some (s', mv) → stackLib.undoFn s' = s := by
  intro s a s' mv h
  simp only [stackLib] at h
  split_ifs at h with hf
  rw [Option.some_inj, Prod.mk.injEq] at h
  rw [← h.1]
  rfl

theorem uciToSan_restores_state_witness :
    (uciToSan stackLib "e2e4" []).2 = ([] : List MoveArg) ∧
      (stackLib.moveFn [] (uciArg "e2e4") = none →
        (uciToSan stackLib "e2e4" []).1 = "e2e4") :=
  uciToSan_restores_state stackLib stackLib_undo "e2e4" []

/-! ## handleAnalyze (part_001 lines 718-816)

The DynamoDB cache is the external collaborator: a partial map from
cache key (`` `${gameUrl}:${playerColor}` ``) to the stored mistake
list.  `some ms` models a cache item carrying a `mistakes` attribute
(JS `cached && cached.mistakes`; an empty array is truthy), `none` a
miss.  The response is modelled together with the side effects the
claim speaks about: the batch records created (`createBatch`) and the
worker invocations issued (`InvokeCommand`). -/

def cacheKeyFor (g : GameData) : String :=
  g.url ++ ":" ++ (if g.player_color = "" then "white" else g.player_color)

/-- The cache pre-check loop of lines 729-749: accumulates the cached
mistakes in submission order, `none` as soon as a game has an empty URL
or a cache miss (`allCached = false`, `break`). -/
def collectAllCached (store : String → Option (List Mistake)) :
    List GameData → Option (List Mistake)
  | [] => some []
  | g :: rest =>
      if g.url ≠ "" then
        match store (cacheKeyFor g) with
        | some ms => (collectAllCached store rest).map (fun tl => ms ++ tl)
        | none => none
      else none

structure AnalyzeResponse where
  statusCode : Nat
  status : String
  mistakesFound : Nat
  mistakes : List Mistake
  cached : Bool
  batchesCreated : List (Nat × Nat)
  invocations : List (Nat × List GameData)
  deriving DecidableEq, Repr

/-- `handleAnalyze` (lines 718-816): reject an empty list (400); if
every game is cached answer 200/completed synchronously with the
assembled mistakes and no batch records or invocations; otherwise
partition (`finalBatchesFor`), create one batch record per batch,
invoke one worker per batch, and answer 202/processing. -/
def handleAnalyze (store : String → Option (List Mistake)) (games : List GameData) :
    AnalyzeResponse :=
  if games.length = 0 then
    { statusCode := 400, status := "", mistakesFound := 0, mistakes := [], cached := false
      batchesCreated := [], invocations := [] }
  else
    match collectAllCached store games with
    | some cachedMistakes =>
        { statusCode := 200, status := "completed", mistakesFound := cachedMistakes.length
          mistakes := cachedMistakes, cached := true, batchesCreated := [], invocations := [] }
    | none =>
        let finalBatches := finalBatchesFor games
        { statusCode := 202, status := "processing", mistakesFound := 0, mistakes := []
          cached := false
          batchesCreated := finalBatches.enum.map (fun p => (p.1, p.2.length))
          invocations := finalBatches.enum }

lemma collectAllCached_all_hits (store : String → Option (List Mistake)) :
    ∀ games : List GameData,
      (∀ g ∈ games, g.url ≠ "" ∧ (store (cacheKeyFor g)).isSome) →
      collectAllCached store games =
        some (games.flatMap (fun g => (store (cacheKeyFor g)).getD [])) := by
  intro games
  induction games with
  | nil => intro _; rfl
  | cons g rest ih =>
      intro h
      obtain ⟨hurl, hsome⟩ := h g (List.mem_cons_self g rest)
      obtain ⟨ms, hms⟩ := Option.isSome_iff_exists.mp hsome
      unfold collectAllCached
      rw [if_pos hurl, hms, ih (fun g' hg' => h g' (List.mem_cons_of_mem _ hg'))]
      simp [hms]

/-- **C8.** When the submitted game list is non-empty and every game
has a non-empty URL and a cache entry under its `url:playerColor` key,
`handleAnalyze` answers 200 / `completed` with the concatenation of the
cached mistake lists in submission order, creating no batch records and
issuing no worker invocations. -/
theorem handleAnalyze_all_cached (store : String → Option (List Mistake))
    (games : List GameData) (hne : games ≠ [])
    (hcache : ∀ g ∈ games, g.url ≠ "" ∧ (store (cacheKeyFor g)).isSome) :
    handleAnalyze store games =
      { statusCode := 200, status := "completed"
        mistakesFound := (games.flatMap (fun g => (store (cacheKeyFor g)).getD [])).length
        mistakes := games.flatMap (fun g => (store (cacheKeyFor g)).getD [])
        cached := true, batchesCreated := [], invocations := [] } := by
  unfold handleAnalyze
  rw [if_neg (by simpa using hne), collectAllCached_all_hits store games hcache]

def store1 : String → Option (List Mistake) :=
  fun k => if k = "https://chess.test/1:white" then some [mistake3] else none

theorem handleAnalyze_all_cached_witness :
    [game1] ≠ [] ∧
      handleAnalyze store1 [game1] =
        { statusCode := 200, status := "completed"
          mistakesFound := ([game1].flatMap (fun g => (store1 (cacheKeyFor g)).getD [])).length
          mistakes := [game1].flatMap (fun g => (store1 (cacheKeyFor g)).getD [])
          cached := true, batchesCreated := [], invocations := [] } :=
  ⟨by decide,
    handleAnalyze_all_cached store1 [game1] (by decide) (by decide)⟩

/-! ## handleStatus (part_001 lines 818-898)

The jobs table is the external collaborator: the job record under the
queried id, and the batch records under `` `${jobId}#batch-${i}` ``
modelled as a map from batch index to record.  `batchReads` counts the
batch-record keys the handler requests from the store (the `BatchGet`
keys); the chunking into 100-key requests only groups those reads and
does not change the totals, which are summed over every returned item
in either case. -/

structure JobRecord where
  jobId : String
  status : String
  currentGame : Nat
  totalGames : Nat
  totalBatches : Nat
  completedBatches : Nat
  mistakesFound : Nat
  mistakes : List Mistake
  deriving DecidableEq, Repr

structure BatchRecord where
  status : String
  gamesProcessed : Nat
  mistakesFound : Nat
  mistakes : List Mistake
  deriving DecidableEq, Repr

structure StatusResponse where
  statusCode : Nat
  jobId : String
  status : String
  currentGame : Nat
  totalGames : Nat
  completedBatches : Nat
  totalBatches : Nat
  mistakesFound : Nat
  mistakes : List Mistake
  batchReads : Nat
  deriving DecidableEq, Repr

/-- `handleStatus` (lines 818-898): 404 for an unknown job; for a
completed job, an immediate snapshot whose `currentGame` and
`completedBatches` are the job's own totals and whose mistakes are the
job record's collection, with no batch reads; for a processing job, an
aggregate over the batch records (missing records are skipped, a
completed batch contributes its mistakes to the partial collection). -/
def handleStatus (jobItem : Option JobRecord) (batchStore : Nat → Option BatchRecord) :
    StatusResponse :=
  match jobItem with
  | none =>
      { statusCode := 404, jobId := "", status := "", currentGame := 0, totalGames := 0
        completedBatches := 0, totalBatches := 0, mistakesFound := 0, mistakes := []
        batchReads := 0 }
  | some job =>
      if job.status = "completed" then
        { statusCode := 200, jobId := job.jobId, status := "completed"
          currentGame := job.totalGames, totalGames := job.totalGames
          completedBatches := job.totalBatches, totalBatches := job.totalBatches
          mistakesFound := job.mistakesFound, mistakes := job.mistakes, batchReads := 0 }
      else
        let items := (List.range job.totalBatches).filterMap batchStore
        let completedItems := items.filter (fun b => b.status == "completed")
        { statusCode := 200, jobId := job.jobId, status := job.status
          currentGame := (items.map (fun b => b.gamesProcessed)).sum
          totalGames := job.totalGames
          completedBatches := completedItems.length
          totalBatches := job.totalBatches
          mistakesFound := (items.map (fun b => b.mistakesFound)).sum
          mistakes := completedItems.flatMap (fun b => b.mistakes)
          batchReads := job.totalBatches }

/-- **C10.** For a stored job whose status is `completed`,
`handleStatus` reports `currentGame` equal to the job's `totalGames`
and `completedBatches` equal to its `totalBatches` — whatever the
stored progress fields hold — and returns the job record's own
mistakes collection, reading no batch records (the response is the same
for every batch store). -/
theorem handleStatus_completed (job : JobRecord) (batchStore : Nat → Option BatchRecord)
    (hc : job.status = "completed") :
    handleStatus (some job) batchStore =
      { statusCode := 200, jobId := job.jobId, status := "completed"
        currentGame := job.totalGames, totalGames := job.totalGames
        completedBatches := job.totalBatches, totalBatches := job.totalBatches
        mistakesFound := job.mistakesFound, mistakes := job.mistakes, batchReads := 0 } := by
  unfold handleStatus
  dsimp only
  rw [if_pos hc]

def jobC : JobRecord :=
  { jobId := "job-1", status := "completed", currentGame := 3, totalGames := 40
    totalBatches := 2, completedBatches := 1, mistakesFound := 1, mistakes := [mistake3] }

theorem handleStatus_completed_witness :
    handleStatus (some jobC) (fun _ => none) =
      { statusCode := 200, jobId := "job-1", status := "completed"
        currentGame := 40, totalGames := 40, completedBatches := 2, totalBatches := 2
        mistakesFound := 1, mistakes := [mistake3], batchReads := 0 } :=
  (handleStatus_completed jobC (fun _ => none) rfl).trans (by decide)

/-! ## completeBatch / aggregateJobResults (part_001 lines 352-423)

Shared state: the jobs table rows touched by batch completion — the
parent job's `completedBatches` counter, `status` and `mistakes`, and
one row per batch.  Each worker's `completeBatch(jobId, i, ms i)`
performs, in order, two store operations:

1. write its own batch row as completed with its mistakes
   (`UpdateCommand` on `jobId#batch-i`, lines 358-370);
2. atomically increment the parent's `completedBatches`, receiving the
   post-increment row (`ReturnValues: 'ALL_NEW'`, lines 373-382), and
   when the returned count reaches `totalBatches` run
   `aggregateJobResults` (read every batch row in index order, write
   the concatenation as the job's mistakes, mark it completed).

Workers interleave arbitrarily between their two operations; the
increment is atomic (the claim's premise).  Aggregation is modelled
inside the triggering increment step: as proved below, the trigger only
fires in the invocation whose increment is the last store operation of
the whole job, so no concurrent writes can interleave with its reads. -/

structure StoreState where
  batches : Nat → Option (List Mistake)
  completedBatches : Nat
  jobMistakes : List Mistake
  jobStatus : String
  aggregations : Nat

def initStoreState : StoreState :=
  { batches := fun _ => none, completedBatches := 0, jobMistakes := []
    jobStatus := "processing", aggregations := 0 }

/-- `aggregateJobResults(jobId, totalBatches)` (lines 393-423): collect
every batch row's mistakes in batch-index order (a missing row or
missing attribute contributes nothing), store the concatenation on the
job, mark it completed.  `aggregations` counts how many times this runs. -/
def aggregateJobResults (total : Nat) (s : StoreState) : StoreState :=
  let allMistakes := ((List.range total).map (fun i => (s.batches i).getD [])).flatten
  { s with jobMistakes := allMistakes, jobStatus := "completed"
           aggregations := s.aggregations + 1 }

inductive BatchEvent : Type
  | write (i : Nat) (ms : List Mistake)
  | increment (i : Nat)

/-- One store operation.  An `increment` step that observes
`completedBatches >= total` after its own increment is the trigger and
runs the aggregation. -/
def stepStore (total : Nat) (s : StoreState) : BatchEvent → StoreState
  | .write i ms =>
      { s with batches := fun j => if j = i then some ms else s.batches j }
  | .increment _ =>
      let s' := { s with completedBatches := s.completedBatches + 1 }
      if s'.completedBatches ≥ total then aggregateJobResults total s' else s'

def runTrace (total : Nat) (s : StoreState) (tr : List BatchEvent) : StoreState :=
  tr.foldl (stepStore total) s

/-- The valid interleavings: `W` are the invocations that have not yet
written their batch row, `I` those that have not yet incremented; an
invocation increments only after its own write, and each invocation
runs exactly once. -/
inductive Sched (total : Nat) (ms : Nat → List Mistake) :
    Finset Nat → Finset Nat → List BatchEvent → Prop
  | done (W I : Finset Nat) (hW : W = ∅) (hI : I = ∅) : Sched total ms W I []
  | write (W I : Finset Nat) (i : Nat) (tr : List BatchEvent) (hiW : i ∈ W)
      (htail : Sched total ms (W.erase i) I tr) :
      Sched total ms W I (BatchEvent.write i (ms i) :: tr)
  | increment (W I : Finset Nat) (i : Nat) (tr : List BatchEvent) (hiI : i ∈ I)
      (hiW : i ∉ W) (htail : Sched total ms W (I.erase i) tr) :
      Sched total ms W I (BatchEvent.increment i :: tr)

lemma sched_empty_nil (total : Nat) (ms : Nat → List Mistake) (tr : List BatchEvent)
    (h : Sched total ms ∅ ∅ tr) : tr = [] := by
  cases h with
  | done _ _ _ _ => rfl
  | write _ _ i _ hiW _ => exact absurd hiW (Finset.not_mem_empty i)
  | increment _ _ i _ hiI _ _ => exact absurd hiI (Finset.not_mem_empty i)

lemma runTrace_cons (total : Nat) (s : StoreState) (e : BatchEvent) (tr : List BatchEvent) :
    runTrace total s (e :: tr) = runTrace total (stepStore total s e) tr := rfl

lemma runTrace_sched (total : Nat) (ms : Nat → List Mistake) :
    ∀ (W I : Finset Nat) (tr : List BatchEvent),
      Sched total ms W I tr →
      ∀ s : StoreState,
        W ⊆ I → I ⊆ Finset.range total →
        s.completedBatches = total - I.card →
        0 < I.card →
        s.aggregations = 0 →
        (∀ j, j < total → j ∉ W → s.batches j = some (ms j)) →
        (runTrace total s tr).aggregations = 1 ∧
          (runTrace total s tr).jobMistakes = ((List.range total).map ms).flatten ∧
          (runTrace total s tr).jobStatus = "completed" := by
  intro W I tr hs
  induction hs with
  | done W I hW hI =>
      intro s hWI hIr hc hpos ha hb
      rw [hI] at hpos
      simp at hpos
  | write W I i tr hiW htail ih =>
      intro s hWI hIr hc hpos ha hb
      rw [runTrace_cons]
      apply ih
      · exact fun x hx => hWI (Finset.mem_of_mem_erase hx)
      · exact hIr
      · exact hc
      · exact hpos
      · exact ha
      · intro j hj hjW
        show (if j = i then some (ms i) else s.batches j) = some (ms j)
        by_cases hji : j = i
        · subst hji; rw [if_pos rfl]
        · rw [if_neg hji]
          exact hb j hj (fun hmem => hjW (Finset.mem_erase.mpr ⟨hji, hmem⟩))
  | increment W I i tr hiI hiW htail ih =>
      intro s hWI hIr hc hpos ha hb
      rw [runTrace_cons]
      have hIcard : I.card ≤ total := by
        calc I.card ≤ (Finset.range total).card := Finset.card_le_card hIr
          _ = total := Finset.card_range total
      by_cases hlast : I.card = 1
      · -- this is the increment that brings the counter to `total`
        have hIi : I = {i} := by
          obtain ⟨a, ha'⟩ := Finset.card_eq_one.mp hlast
          subst ha'
          rw [Finset.mem_singleton] at hiI
          subst hiI
          rfl
        have hW0 : W = ∅ := by
          rw [← Finset.subset_empty]
          intro x hx
          have hxI := hWI hx
          rw [hIi, Finset.mem_singleton] at hxI
          subst hxI
          exact absurd hx hiW
        have hIe : I.erase i = ∅ := by rw [hIi]; exact Finset.erase_singleton i
        have htr : tr = [] := by
          have htail' := htail
          rw [hW0, hIe] at htail'
          exact sched_empty_nil total ms tr htail' 
        subst htr
        have htot : 1 ≤ total := by omega
        have hstep : stepStore total s (BatchEvent.increment i) =
            aggregateJobResults total { s with completedBatches := s.completedBatches + 1 } := by
          show (if s.completedBatches + 1 ≥ total then
              aggregateJobResults total { s with completedBatches := s.completedBatches + 1 }
            else { s with completedBatches := s.completedBatches + 1 }) = _
          rw [if_pos (by omega)]
        simp only [runTrace, List.foldl]
        rw [hstep]
        refine ⟨by simp [aggregateJobResults, ha], ?_, by simp [aggregateJobResults]⟩
        show ((List.range total).map
            (fun j => (s.batches j).getD [])).flatten = ((List.range total).map ms).flatten
        congr 1
        apply List.map_congr_left
        intro j hj
        rw [hb j (List.mem_range.mp hj) (by rw [hW0]; exact Finset.not_mem_empty j)]
        rfl
      · -- other increments do not trigger aggregation
        have h2 : 2 ≤ I.card := by
          have : 0 < I.card := Finset.card_pos.mpr ⟨i, hiI⟩
          omega
        have hstep : stepStore total s (BatchEvent.increment i) =
            { s with completedBatches := s.completedBatches + 1 } := by
          show (if s.completedBatches + 1 ≥ total then
              aggregateJobResults total { s with completedBatches := s.completedBatches + 1 }
            else { s with completedBatches := s.completedBatches + 1 }) = _
          rw [if_neg (by omega)]
        rw [hstep]
        have hcard : (I.erase i).card = I.card - 1 := Finset.card_erase_of_mem hiI
        apply ih
        · intro x hx
          exact Finset.mem_erase.mpr ⟨fun he => hiW (he ▸ hx), hWI hx⟩
        · exact (Finset.erase_subset i I).trans hIr
        · show s.completedBatches + 1 = total - (I.erase i).card
          omega
        · omega
        · exact ha
        · exact hb

/-- **C2.** For a job with `total >= 1` batches in which every batch
invokes `completeBatch` exactly once (any interleaving of the batch
writes and atomic increments, each increment after its own batch
write), exactly one invocation observes `completedBatches >= total`
after its own increment — the model runs the aggregation precisely on
that observation, and the final `aggregations` count is 1 — and the
aggregation writes the concatenation of the batches' mistake lists in
batch-index order as the job's mistakes and marks the job completed. -/
theorem completeBatch_single_aggregation (total : Nat) (ms : Nat → List Mistake)
    (tr : List BatchEvent) (htot : 1 ≤ total)
    (hs : Sched total ms (Finset.range total) (Finset.range total) tr) :
    (runTrace total initStoreState tr).aggregations = 1 ∧
      (runTrace total initStoreState tr).jobMistakes = ((List.range total).map ms).flatten ∧
      (runTrace total initStoreState tr).jobStatus = "completed" := by
  apply runTrace_sched total ms (Finset.range total) (Finset.range total) tr hs
  · exact Finset.Subset.refl _
  · exact Finset.Subset.refl _
  · simp [initStoreState, Finset.card_range]
  · simpa [Finset.card_range] using htot
  · rfl
  · intro j hj hjW
    exact absurd (Finset.mem_range.mpr hj) hjW

def msW : Nat → List Mistake := fun i => if i = 0 then [mistake3] else []

/-- Two batches completing "simultaneously": both batch rows written,
then the two increments back to back. -/
def trW : List BatchEvent :=
  [BatchEvent.write 0 (msW 0), BatchEvent.write 1 (msW 1),
   BatchEvent.increment 1, BatchEvent.increment 0]

lemma trW_sched : Sched 2 msW (Finset.range 2) (Finset.range 2) trW := by
  apply Sched.write _ _ 0 _ (by decide)
  apply Sched.write _ _ 1 _ (by decide)
  apply Sched.increment _ _ 1 _ (by decide) (by decide)
  apply Sched.increment _ _ 0 _ (by decide) (by decide)
  exact Sched.done _ _ (by decide) (by decide)

theorem completeBatch_single_aggregation_witness :
    ((runTrace 2 initStoreState trW).aggregations = 1 ∧
        (runTrace 2 initStoreState trW).jobMistakes = ((List.range 2).map msW).flatten ∧
        (runTrace 2 initStoreState trW).jobStatus = "completed") ∧
      (runTrace 2 initStoreState trW).jobMistakes = [mistake3] :=
  ⟨completeBatch_single_aggregation 2 msW trW (by decide) trW_sched, by decide⟩
